import Mathlib

/-!
Verification of the fixed-block-size memory pool in `src/memory_pool.cpp`.

The pool state is embedded shallowly:

* Block and chunk addresses are natural numbers.  The C heap is idealized as
  a bump allocator (`Heap`): `malloc` hands out consecutive addresses and
  fails once a byte budget is exhausted; this models the facts the proofs
  rely on, namely that distinct successful `malloc` calls return disjoint
  address ranges and that `malloc` can fail.
* The lock-free free list (an intrusive singly-linked list threaded through
  the first `sizeof(Node)` bytes of each free block) is modelled as a Lean
  `List Nat` of block addresses, head first.  In single-threaded executions
  the CAS loops of `allocate`/`deallocate` reduce to a plain pop/push of the
  head, so this abstraction is exact whenever the intrusive links of
  distinct free blocks do not overlap in memory, i.e. whenever consecutive
  carved blocks are at least `sizeof(Node)` bytes apart.  Theorems about
  executions therefore carry the hypothesis `sizeofNode ≤ blockSize` (and a
  no-overflow hypothesis for the `size_t` product `blockSize * blockCount`).
* `std::bad_alloc` propagation is modelled with `Except`; the `oom` error
  carries the pool members and heap as they are at the throw point, which in
  the source is before any mutation of `allocatedChunks` or the free list.
* The unbounded recursion `allocate → allocateChunk → allocate` of the
  source is modelled with explicit fuel (`allocateFuel`); `outOfFuel` marks
  an execution whose recursion depth exceeds the fuel.
-/

namespace MemPool

/-- Size in bytes of `MemoryPool::Node` (a single pointer) on the 64-bit
platform the source targets: `sizeof(Node) = 8`. -/
def sizeofNode : Nat := 8

/-- Modulus of `size_t` arithmetic on the same platform. -/
def sizetMod : Nat := 2 ^ 64

/-- Idealized C heap: a bump allocator with a remaining byte budget. -/
structure Heap where
  nextAddr : Nat
  budget : Nat
deriving DecidableEq

/-- `std::malloc`: returns the next fresh address if the requested size fits
in the remaining budget, `none` (a null pointer) otherwise. -/
def malloc (h : Heap) (size : Nat) : Option (Nat × Heap) :=
  if size ≤ h.budget then
    some (h.nextAddr, ⟨h.nextAddr + size, h.budget - size⟩)
  else
    none

/-- The members of `class MemoryPool`: `freeList` (the intrusive list of
free-block addresses, head first), `allocatedChunks` (chunk base addresses in
acquisition order), `blockSize` and `blockCount`. -/
structure MemoryPool where
  freeList : List Nat
  allocatedChunks : List Nat
  blockSize : Nat
  blockCount : Nat
deriving DecidableEq

/-- Errors of an execution: `oom` is a thrown `std::bad_alloc`, carrying the
pool members and heap as they stand at the throw point (in the source the
throw precedes every mutation of the pool, so these are the values at entry);
`outOfFuel` marks recursion deeper than the supplied fuel; `badFree` marks a
trace that passes `deallocate` a handle not currently held (undefined
behavior by the caller contract, so such traces are excluded). -/
inductive PoolErr where
  | oom (p : MemoryPool) (h : Heap)
  | outOfFuel
  | badFree
deriving DecidableEq

/-- `size_t chunkSize = blockSize * blockCount;` (`size_t` arithmetic). -/
def chunkSz (p : MemoryPool) : Nat := p.blockSize * p.blockCount % sizetMod

/-- `MemoryPool::deallocate(void* ptr)`: push `ptr` onto the free list.  In a
single-threaded execution the CAS retry loop succeeds on the first attempt
and the effect is exactly a push of the head. -/
def MemoryPool.deallocate (p : MemoryPool) (ptr : Nat) : MemoryPool :=
  { p with freeList := ptr :: p.freeList }

/-- `MemoryPool::allocateChunk()`: `malloc` one chunk of `chunkSize` bytes
(throwing `std::bad_alloc` on failure, before any mutation), record it in
`allocatedChunks`, then carve it into `blockCount` blocks at offsets
`i * blockSize` and push each onto the free list via `deallocate`. -/
def MemoryPool.allocateChunk (p : MemoryPool) (h : Heap) :
    Except PoolErr (MemoryPool × Heap) :=
  match malloc h (chunkSz p) with
  | none => .error (.oom p h)
  | some (chunk, h') =>
    let p₁ : MemoryPool := { p with allocatedChunks := p.allocatedChunks ++ [chunk] }
    let p₂ : MemoryPool :=
      (List.range p.blockCount).foldl (fun q i => q.deallocate (chunk + i * p.blockSize)) p₁
    .ok (p₂, h')

/-- `MemoryPool::allocate()`: pop the free-list head if the list is
non-empty (in a single-threaded execution the CAS loop pops on the first
attempt); otherwise grow by one chunk and recurse.  The recursion of the
source is unbounded, so it is modelled with explicit fuel. -/
def MemoryPool.allocateFuel : Nat → MemoryPool → Heap →
    Except PoolErr (Nat × MemoryPool × Heap)
  | 0, _, _ => .error .outOfFuel
  | fuel + 1, p, h =>
    match p.freeList with
    | ptr :: rest => .ok (ptr, { p with freeList := rest }, h)
    | [] =>
      match p.allocateChunk h with
      | .error e => .error e
      | .ok (p', h') => MemoryPool.allocateFuel fuel p' h'

/-- `MemoryPool::MemoryPool(size_t blockSize, size_t blockCount)`.  The
member init list copies both arguments into the members and sets `freeList`
to null, then the body runs `allocateChunk()`.  Note: the body's clamp
`if (blockSize < sizeof(Node)) blockSize = sizeof(Node);` assigns to the
constructor *parameter*, which shadows the member that was already
initialized — the member `blockSize` keeps the caller's requested value, so
no clamping is embedded here. -/
def mkMemoryPool (blockSize blockCount : Nat) (h : Heap) :
    Except PoolErr (MemoryPool × Heap) :=
  MemoryPool.allocateChunk ⟨[], [], blockSize, blockCount⟩ h

/-- `MemoryPool::MemoryPool(MemoryPool&&)`: the destination is built from
the source's members in order; the source is then left with a null free list
and zeroed sizes (its chunk vector was moved from, which for `std::vector`
move construction leaves it empty).  Result: (destination, moved-from
source). -/
def MemoryPool.moveCtor (other : MemoryPool) : MemoryPool × MemoryPool :=
  (⟨other.freeList, other.allocatedChunks, other.blockSize, other.blockCount⟩,
   ⟨[], [], 0, 0⟩)

/-- `MemoryPool::operator=(MemoryPool&&)` in the `this != &other` case: the
destination first frees every chunk it owns, then takes over all of the
source's members; the source is left with a null free list, an emptied chunk
vector and zeroed sizes.  Result: (new destination, moved-from source, the
chunk bases the destination released). -/
def MemoryPool.moveAssign (dest other : MemoryPool) :
    MemoryPool × MemoryPool × List Nat :=
  (⟨other.freeList, other.allocatedChunks, other.blockSize, other.blockCount⟩,
   ⟨[], [], 0, 0⟩,
   dest.allocatedChunks)

/-- One client operation on a pool: an `allocate` call, or a `deallocate`
of the block at address `b`. -/
inductive Op where
  | alloc : Op
  | free : Nat → Op
deriving DecidableEq

/-- A pool together with the idealized heap and the multiset (as a list,
most recent first) of block addresses currently held by callers. -/
structure PoolSt where
  pool : MemoryPool
  heap : Heap
  held : List Nat
deriving DecidableEq

/-- Run one client operation.  `alloc` runs `allocate` with fuel 2 (enough
for one growth cycle, which is all the source ever needs when
`blockCount ≥ 1`); `free b` requires `b` to be currently held — passing any
other pointer is undefined behavior by the caller contract, and such traces
are rejected with `badFree` rather than given a meaning. -/
def runOp (s : PoolSt) : Op → Except PoolErr PoolSt
  | .alloc =>
    match s.pool.allocateFuel 2 s.heap with
    | .ok (ptr, p', h') => .ok ⟨p', h', ptr :: s.held⟩
    | .error e => .error e
  | .free b =>
    if b ∈ s.held then
      .ok ⟨s.pool.deallocate b, s.heap, s.held.erase b⟩
    else
      .error .badFree

/-- Run a list of client operations in order. -/
def runOps (s : PoolSt) : List Op → Except PoolErr PoolSt
  | [] => .ok s
  | op :: ops =>
    match runOp s op with
    | .ok s' => runOps s' ops
    | .error e => .error e

/-- Construct a fresh pool (no blocks held by callers). -/
def initPool (blockSize blockCount : Nat) (h : Heap) : Except PoolErr PoolSt :=
  match mkMemoryPool blockSize blockCount h with
  | .ok (p, h') => .ok ⟨p, h', []⟩
  | .error e => .error e

/-- Number of `alloc` operations in a trace. -/
def countAlloc : List Op → Nat
  | [] => 0
  | .alloc :: ops => countAlloc ops + 1
  | .free _ :: ops => countAlloc ops

/-- Number of `free` operations in a trace. -/
def countFree : List Op → Nat
  | [] => 0
  | .alloc :: ops => countFree ops
  | .free _ :: ops => countFree ops + 1

/-- The block addresses carved from a chunk based at `c`:
`c + i * bs` for `i < bc`, in address order. -/
def blocksOf (bs bc c : Nat) : List Nat :=
  (List.range bc).map (fun i => c + i * bs)

/-- All block addresses of a list of chunk bases, in chunk order. -/
def allBlocksCs (bs bc : Nat) : List Nat → List Nat
  | [] => []
  | c :: cs => blocksOf bs bc c ++ allBlocksCs bs bc cs

/-- All block addresses of all chunks the pool owns. -/
def allBlocks (p : MemoryPool) : List Nat :=
  allBlocksCs p.blockSize p.blockCount p.allocatedChunks

/-- Heap discipline for the owned chunks: chunk bases are recorded in
ascending order with at least `chunkSz` bytes between consecutive bases, and
every chunk lies entirely below the heap's next fresh address.  This is what
successive `malloc` calls guarantee. -/
def chunksOK (p : MemoryPool) (h : Heap) : Prop :=
  List.Pairwise (fun a b => a + chunkSz p ≤ b) p.allocatedChunks ∧
  ∀ c ∈ p.allocatedChunks, c + chunkSz p ≤ h.nextAddr

/-- The reachable-state invariant: the heap discipline holds, and the free
list together with the caller-held blocks is a permutation of the blocks of
all owned chunks (the partition invariant of the spec's data model). -/
def Inv (s : PoolSt) : Prop :=
  chunksOK s.pool s.heap ∧
  List.Perm (s.pool.freeList ++ s.held) (allBlocks s.pool)

/-! ### Basic characterizations of the embedded operations -/

theorem malloc_some (h : Heap) (size : Nat) (hb : size ≤ h.budget) :
    malloc h size = some (h.nextAddr, ⟨h.nextAddr + size, h.budget - size⟩) :=
  if_pos hb

theorem malloc_none (h : Heap) (size : Nat) (hb : ¬ size ≤ h.budget) :
    malloc h size = none :=
  if_neg hb

theorem deallocate_freeList (p : MemoryPool) (ptr : Nat) :
    (p.deallocate ptr).freeList = ptr :: p.freeList := rfl

theorem foldl_deallocate_blocks (bs c : Nat) (p : MemoryPool) : ∀ n : Nat,
    (List.range n).foldl (fun q i => q.deallocate (c + i * bs)) p =
      { p with freeList := (blocksOf bs n c).reverse ++ p.freeList }
  | 0 => by simp [blocksOf]
  | n + 1 => by
    rw [List.range_succ, List.foldl_append, foldl_deallocate_blocks bs c p n]
    simp [MemoryPool.deallocate, blocksOf, List.range_succ]

theorem allocateChunk_ok (p : MemoryPool) (h : Heap) (hb : chunkSz p ≤ h.budget) :
    p.allocateChunk h =
      .ok ({ p with
              allocatedChunks := p.allocatedChunks ++ [h.nextAddr],
              freeList :=
                (blocksOf p.blockSize p.blockCount h.nextAddr).reverse ++ p.freeList },
           ⟨h.nextAddr + chunkSz p, h.budget - chunkSz p⟩) := by
  rw [MemoryPool.allocateChunk, malloc_some h _ hb]
  simp [foldl_deallocate_blocks]

theorem allocateChunk_fail (p : MemoryPool) (h : Heap) (hb : ¬ chunkSz p ≤ h.budget) :
    p.allocateChunk h = .error (.oom p h) := by
  rw [MemoryPool.allocateChunk, malloc_none h _ hb]

theorem allocateFuel_cons (n : Nat) (p : MemoryPool) (h : Heap) (x : Nat)
    (rest : List Nat) (hfl : p.freeList = x :: rest) :
    p.allocateFuel (n + 1) h = .ok (x, { p with freeList := rest }, h) := by
  rw [MemoryPool.allocateFuel, hfl]

theorem allocateFuel_nil_fail (n : Nat) (p : MemoryPool) (h : Heap)
    (hfl : p.freeList = []) (hb : ¬ chunkSz p ≤ h.budget) :
    p.allocateFuel (n + 1) h = .error (.oom p h) := by
  rw [MemoryPool.allocateFuel, hfl, allocateChunk_fail p h hb]

theorem allocateFuel_nil_ok (n : Nat) (p : MemoryPool) (h : Heap)
    (hfl : p.freeList = []) (hb : chunkSz p ≤ h.budget) :
    p.allocateFuel (n + 1) h =
      MemoryPool.allocateFuel n
        { p with
            allocatedChunks := p.allocatedChunks ++ [h.nextAddr],
            freeList :=
              (blocksOf p.blockSize p.blockCount h.nextAddr).reverse ++ p.freeList }
        ⟨h.nextAddr + chunkSz p, h.budget - chunkSz p⟩ := by
  rw [MemoryPool.allocateFuel, hfl, allocateChunk_ok p h hb, hfl]

/-- With an empty free list, fuel 1 is never enough for `allocate` to
return a block (growing consumes the only recursion step). -/
theorem allocateFuel_one_nil_not_ok (p : MemoryPool) (h : Heap)
    (hfl : p.freeList = []) (v : Nat × MemoryPool × Heap) :
    p.allocateFuel 1 h ≠ .ok v := by
  by_cases hb : chunkSz p ≤ h.budget
  · rw [allocateFuel_nil_ok 0 p h hfl hb]
    intro hc
    exact Except.noConfusion hc
  · rw [allocateFuel_nil_fail 0 p h hfl hb]
    intro hc
    exact Except.noConfusion hc

/-- Complete case analysis of a successful `allocate` call with fuel 2 (one
growth cycle allowed): either the free list was non-empty and its head was
popped, or the list was empty, one chunk was acquired, and the first entry
of the freshly published blocks was popped. -/
theorem allocateFuel_two_cases (p p' : MemoryPool) (h h' : Heap) (x : Nat)
    (hok : p.allocateFuel 2 h = .ok (x, p', h')) :
    (∃ rest, p.freeList = x :: rest ∧ p' = { p with freeList := rest } ∧ h' = h) ∨
    (p.freeList = [] ∧ chunkSz p ≤ h.budget ∧
      ∃ rest,
        (blocksOf p.blockSize p.blockCount h.nextAddr).reverse = x :: rest ∧
        p' = { p with
                allocatedChunks := p.allocatedChunks ++ [h.nextAddr],
                freeList := rest } ∧
        h' = ⟨h.nextAddr + chunkSz p, h.budget - chunkSz p⟩) := by
  cases hfl : p.freeList with
  | cons y rest =>
    rw [allocateFuel_cons 1 p h y rest hfl] at hok
    simp only [Except.ok.injEq, Prod.mk.injEq] at hok
    obtain ⟨hx, hp, hh⟩ := hok
    subst hx
    subst hh
    exact Or.inl ⟨rest, rfl, hp.symm, rfl⟩
  | nil =>
    by_cases hb : chunkSz p ≤ h.budget
    · rw [allocateFuel_nil_ok 1 p h hfl hb] at hok
      cases hrev : (blocksOf p.blockSize p.blockCount h.nextAddr).reverse with
      | nil =>
        exact absurd hok (allocateFuel_one_nil_not_ok _ _ (by simp [hrev, hfl]) _)
      | cons y rest =>
        rw [allocateFuel_cons 0 _ _ y rest (by simp [hrev, hfl])] at hok
        simp only [Except.ok.injEq, Prod.mk.injEq] at hok
        obtain ⟨hx, hp, hh⟩ := hok
        subst hx
        subst hh
        refine Or.inr ⟨rfl, hb, rest, rfl, ?_, rfl⟩
        rw [← hp]
    · rw [allocateFuel_nil_fail 1 p h hfl hb] at hok
      exact Except.noConfusion hok

/-! ### Characterizations of single client operations -/

theorem runOp_alloc_pop (s : PoolSt) (x : Nat) (rest : List Nat)
    (hfl : s.pool.freeList = x :: rest) :
    runOp s .alloc = .ok ⟨{ s.pool with freeList := rest }, s.heap, x :: s.held⟩ := by
  unfold runOp
  rw [allocateFuel_cons 1 s.pool s.heap x rest hfl]

theorem runOp_free_mem (s : PoolSt) (b : Nat) (hb : b ∈ s.held) :
    runOp s (.free b) = .ok ⟨s.pool.deallocate b, s.heap, s.held.erase b⟩ := by
  simp only [runOp]
  rw [if_pos hb]

theorem runOp_free_cases (s s' : PoolSt) (b : Nat)
    (hok : runOp s (.free b) = .ok s') :
    b ∈ s.held ∧ s' = ⟨s.pool.deallocate b, s.heap, s.held.erase b⟩ := by
  simp only [runOp] at hok
  by_cases hb : b ∈ s.held
  · rw [if_pos hb] at hok
    simp only [Except.ok.injEq] at hok
    exact ⟨hb, hok.symm⟩
  · rw [if_neg hb] at hok
    exact absurd hok (fun hc => Except.noConfusion hc)

theorem runOp_alloc_cases (s s' : PoolSt) (hok : runOp s .alloc = .ok s') :
    (∃ x rest, s.pool.freeList = x :: rest ∧
        s' = ⟨{ s.pool with freeList := rest }, s.heap, x :: s.held⟩) ∨
    (s.pool.freeList = [] ∧ chunkSz s.pool ≤ s.heap.budget ∧
      ∃ x rest,
        (blocksOf s.pool.blockSize s.pool.blockCount s.heap.nextAddr).reverse = x :: rest ∧
        s' = ⟨{ s.pool with
                  allocatedChunks := s.pool.allocatedChunks ++ [s.heap.nextAddr],
                  freeList := rest },
              ⟨s.heap.nextAddr + chunkSz s.pool, s.heap.budget - chunkSz s.pool⟩,
              x :: s.held⟩) := by
  unfold runOp at hok
  rcases hres : s.pool.allocateFuel 2 s.heap with e | ⟨x, p', h'⟩
  · rw [hres] at hok
    exact absurd hok (fun hc => Except.noConfusion hc)
  · rw [hres] at hok
    simp only [Except.ok.injEq] at hok
    rcases allocateFuel_two_cases s.pool p' s.heap h' x hres with
      ⟨rest, hfl, hp, hh⟩ | ⟨hfl, hb, rest, hrev, hp, hh⟩
    · exact Or.inl ⟨x, rest, hfl, by rw [← hok, hp, hh]⟩
    · exact Or.inr ⟨hfl, hb, x, rest, hrev, by rw [← hok, hp, hh]⟩

theorem runOps_nil_ok (s s' : PoolSt) (hok : runOps s [] = .ok s') : s' = s := by
  unfold runOps at hok
  simp only [Except.ok.injEq] at hok
  exact hok.symm

theorem runOps_cons_ok (s s' : PoolSt) (op : Op) (ops : List Op)
    (hok : runOps s (op :: ops) = .ok s') :
    ∃ s₁, runOp s op = .ok s₁ ∧ runOps s₁ ops = .ok s' := by
  unfold runOps at hok
  rcases hstep : runOp s op with e | s₁ <;> rw [hstep] at hok
  · exact absurd hok (fun hc => Except.noConfusion hc)
  · exact ⟨s₁, rfl, hok⟩

/-! ### The partition invariant is preserved by every operation -/

theorem allBlocksCs_append (bs bc : Nat) : ∀ cs ds : List Nat,
    allBlocksCs bs bc (cs ++ ds) = allBlocksCs bs bc cs ++ allBlocksCs bs bc ds
  | [], ds => rfl
  | c :: cs, ds => by
    show blocksOf bs bc c ++ allBlocksCs bs bc (cs ++ ds) =
      blocksOf bs bc c ++ allBlocksCs bs bc cs ++ allBlocksCs bs bc ds
    rw [allBlocksCs_append bs bc cs ds, List.append_assoc]

theorem allBlocksCs_single (bs bc c : Nat) :
    allBlocksCs bs bc [c] = blocksOf bs bc c := by
  simp [allBlocksCs]

theorem Inv_runOp (s s' : PoolSt) (op : Op) (hok : runOp s op = .ok s')
    (hinv : Inv s) : Inv s' := by
  obtain ⟨⟨hpw, htop⟩, hperm⟩ := hinv
  cases op with
  | free b =>
    obtain ⟨hb, hs'⟩ := runOp_free_cases s s' b hok
    subst hs'
    refine ⟨⟨hpw, htop⟩, ?_⟩
    have h1 : List.Perm (s.held) (b :: s.held.erase b) := List.perm_cons_erase hb
    have h2 : List.Perm (s.pool.freeList ++ (b :: s.held.erase b))
        (s.pool.freeList ++ s.held) := List.Perm.append_left _ h1.symm
    exact (List.perm_middle.symm.trans h2).trans hperm
  | alloc =>
    rcases runOp_alloc_cases s s' hok with
      ⟨x, rest, hfl, hs'⟩ | ⟨hfl, hb, x, rest, hrev, hs'⟩
    · subst hs'
      refine ⟨⟨hpw, htop⟩, ?_⟩
      rw [hfl] at hperm
      exact List.perm_middle.trans hperm
    · subst hs'
      rw [hfl] at hperm
      refine ⟨⟨?_, ?_⟩, ?_⟩
      · rw [List.pairwise_append]
        refine ⟨hpw, List.pairwise_singleton _ _, ?_⟩
        intro a ha b hb'
        rw [List.mem_singleton] at hb'
        subst hb'
        exact htop a ha
      · intro c hc
        rw [List.mem_append, List.mem_singleton] at hc
        rcases hc with hc | hc
        · exact le_trans (htop c hc) (Nat.le_add_right _ _)
        · subst hc
          exact Nat.add_le_add_left (le_refl _) _
      · show List.Perm (rest ++ x :: s.held)
          (allBlocksCs s.pool.blockSize s.pool.blockCount
            (s.pool.allocatedChunks ++ [s.heap.nextAddr]))
        rw [allBlocksCs_append, allBlocksCs_single]
        have h1 : List.Perm (rest ++ x :: s.held) ((x :: rest) ++ s.held) :=
          List.perm_middle
        rw [← hrev] at h1
        have h2 : List.Perm
            ((blocksOf s.pool.blockSize s.pool.blockCount s.heap.nextAddr).reverse ++ s.held)
            (blocksOf s.pool.blockSize s.pool.blockCount s.heap.nextAddr ++ s.held) :=
          List.Perm.append_right _ (List.reverse_perm _)
        have h3 : List.Perm
            (blocksOf s.pool.blockSize s.pool.blockCount s.heap.nextAddr ++ s.held)
            (blocksOf s.pool.blockSize s.pool.blockCount s.heap.nextAddr ++
              allBlocks s.pool) :=
          List.Perm.append_left _ hperm
        exact ((h1.trans h2).trans h3).trans (List.perm_append_comm)

theorem Inv_runOps : ∀ (ops : List Op) (s s' : PoolSt),
    runOps s ops = .ok s' → Inv s → Inv s'
  | [], s, s', hok, hinv => by rw [runOps_nil_ok s s' hok]; exact hinv
  | op :: ops, s, s', hok, hinv => by
    obtain ⟨s₁, hstep, hrest⟩ := runOps_cons_ok s s' op ops hok
    exact Inv_runOps ops s₁ s' hrest (Inv_runOp s s₁ op hstep hinv)

/-! ### Frame facts: sizes are constant, the chunk list is append-only -/

theorem runOp_cfg (s s' : PoolSt) (op : Op) (hok : runOp s op = .ok s') :
    s'.pool.blockSize = s.pool.blockSize ∧ s'.pool.blockCount = s.pool.blockCount := by
  cases op with
  | free b =>
    obtain ⟨_, hs'⟩ := runOp_free_cases s s' b hok
    subst hs'
    exact ⟨rfl, rfl⟩
  | alloc =>
    rcases runOp_alloc_cases s s' hok with ⟨x, rest, _, hs'⟩ | ⟨_, _, x, rest, _, hs'⟩ <;>
      subst hs' <;> exact ⟨rfl, rfl⟩

theorem runOp_chunks_mono (s s' : PoolSt) (op : Op) (hok : runOp s op = .ok s') :
    s.pool.allocatedChunks.length ≤ s'.pool.allocatedChunks.length := by
  cases op with
  | free b =>
    obtain ⟨_, hs'⟩ := runOp_free_cases s s' b hok
    subst hs'
    exact le_refl _
  | alloc =>
    rcases runOp_alloc_cases s s' hok with ⟨x, rest, _, hs'⟩ | ⟨_, _, x, rest, _, hs'⟩ <;>
      subst hs'
    · exact le_refl _
    · simp

theorem runOp_held_count (s s' : PoolSt) (op : Op) (hok : runOp s op = .ok s') :
    s'.held.length + countFree [op] = s.held.length + countAlloc [op] := by
  cases op with
  | free b =>
    obtain ⟨hb, hs'⟩ := runOp_free_cases s s' b hok
    subst hs'
    show (s.held.erase b).length + 1 = s.held.length + 0
    have hpos := List.length_pos.mpr (List.ne_nil_of_mem hb)
    rw [List.length_erase_of_mem hb]
    omega
  | alloc =>
    rcases runOp_alloc_cases s s' hok with ⟨x, rest, _, hs'⟩ | ⟨_, _, x, rest, _, hs'⟩ <;>
      subst hs' <;> rfl

theorem runOps_cfg : ∀ (ops : List Op) (s s' : PoolSt), runOps s ops = .ok s' →
    s'.pool.blockSize = s.pool.blockSize ∧ s'.pool.blockCount = s.pool.blockCount
  | [], s, s', hok => by rw [runOps_nil_ok s s' hok]; exact ⟨rfl, rfl⟩
  | op :: ops, s, s', hok => by
    obtain ⟨s₁, hstep, hrest⟩ := runOps_cons_ok s s' op ops hok
    obtain ⟨h1, h2⟩ := runOps_cfg ops s₁ s' hrest
    obtain ⟨h3, h4⟩ := runOp_cfg s s₁ op hstep
    exact ⟨h1.trans h3, h2.trans h4⟩

theorem runOps_chunks_mono : ∀ (ops : List Op) (s s' : PoolSt),
    runOps s ops = .ok s' →
    s.pool.allocatedChunks.length ≤ s'.pool.allocatedChunks.length
  | [], s, s', hok => by rw [runOps_nil_ok s s' hok]
  | op :: ops, s, s', hok => by
    obtain ⟨s₁, hstep, hrest⟩ := runOps_cons_ok s s' op ops hok
    exact le_trans (runOp_chunks_mono s s₁ op hstep)
      (runOps_chunks_mono ops s₁ s' hrest)

theorem countAlloc_cons (op : Op) (ops : List Op) :
    countAlloc (op :: ops) = countAlloc [op] + countAlloc ops := by
  cases op <;> simp [countAlloc, Nat.add_comm]

theorem countFree_cons (op : Op) (ops : List Op) :
    countFree (op :: ops) = countFree [op] + countFree ops := by
  cases op <;> simp [countFree, Nat.add_comm]

theorem runOps_held_count : ∀ (ops : List Op) (s s' : PoolSt),
    runOps s ops = .ok s' →
    s'.held.length + countFree ops = s.held.length + countAlloc ops
  | [], s, s', hok => by rw [runOps_nil_ok s s' hok]; rfl
  | op :: ops, s, s', hok => by
    obtain ⟨s₁, hstep, hrest⟩ := runOps_cons_ok s s' op ops hok
    have h1 := runOp_held_count s s₁ op hstep
    have h2 := runOps_held_count ops s₁ s' hrest
    rw [countAlloc_cons, countFree_cons]
    omega

/-! ### The freshly constructed pool -/

theorem initPool_ok (bs bc : Nat) (h : Heap) (s₀ : PoolSt)
    (hok : initPool bs bc h = .ok s₀) :
    bs * bc % sizetMod ≤ h.budget ∧
    s₀ = ⟨⟨(blocksOf bs bc h.nextAddr).reverse, [h.nextAddr], bs, bc⟩,
          ⟨h.nextAddr + bs * bc % sizetMod, h.budget - bs * bc % sizetMod⟩, []⟩ := by
  unfold initPool mkMemoryPool at hok
  by_cases hb : chunkSz ⟨[], [], bs, bc⟩ ≤ h.budget
  · rw [allocateChunk_ok _ h hb] at hok
    simp only [Except.ok.injEq] at hok
    refine ⟨hb, ?_⟩
    rw [← hok]
    simp [chunkSz]
  · rw [allocateChunk_fail _ h hb] at hok
    exact absurd hok (fun hc => Except.noConfusion hc)

theorem Inv_init (bs bc : Nat) (h : Heap) (s₀ : PoolSt)
    (hok : initPool bs bc h = .ok s₀) : Inv s₀ := by
  obtain ⟨hb, hs⟩ := initPool_ok bs bc h s₀ hok
  subst hs
  refine ⟨⟨List.pairwise_singleton _ _, ?_⟩, ?_⟩
  · intro c hc
    rw [List.mem_singleton] at hc
    subst hc
    exact le_refl _
  · show List.Perm ((blocksOf bs bc h.nextAddr).reverse ++ [])
      (allBlocksCs bs bc [h.nextAddr])
    rw [List.append_nil, allBlocksCs_single]
    exact List.reverse_perm _

/-! ### Counting and distinctness of carved blocks -/

theorem blocksOf_length (bs bc c : Nat) : (blocksOf bs bc c).length = bc := by
  simp [blocksOf]

theorem allBlocksCs_length (bs bc : Nat) : ∀ cs : List Nat,
    (allBlocksCs bs bc cs).length = cs.length * bc
  | [] => by simp [allBlocksCs]
  | c :: cs => by
    simp [allBlocksCs, blocksOf_length, allBlocksCs_length bs bc cs, Nat.succ_mul,
      Nat.add_comm]

theorem blocksOf_mem (bs bc c a : Nat) (ha : a ∈ blocksOf bs bc c) :
    ∃ i < bc, a = c + i * bs := by
  simp only [blocksOf, List.mem_map, List.mem_range] at ha
  obtain ⟨i, hi, rfl⟩ := ha
  exact ⟨i, hi, rfl⟩

theorem blocksOf_mem_bounds (bs bc c a : Nat) (ha : a ∈ blocksOf bs bc c) :
    c ≤ a ∧ a + bs ≤ c + bc * bs := by
  obtain ⟨i, hi, rfl⟩ := blocksOf_mem bs bc c a ha
  constructor
  · exact Nat.le_add_right _ _
  · rw [Nat.add_assoc]
    refine Nat.add_le_add_left ?_ _
    calc i * bs + bs = (i + 1) * bs := by rw [Nat.succ_mul]
    _ ≤ bc * bs := Nat.mul_le_mul_right _ hi

theorem blocksOf_nodup (bs bc c : Nat) (hbs : 1 ≤ bs) :
    (blocksOf bs bc c).Nodup := by
  refine List.Nodup.map ?_ (List.nodup_range bc)
  intro i j hij
  have h1 : c + i * bs = c + j * bs := hij
  have h2 : i * bs = j * bs := Nat.add_left_cancel h1
  exact Nat.eq_of_mul_eq_mul_right hbs h2

theorem allBlocksCs_mem (bs bc : Nat) : ∀ (cs : List Nat) (a : Nat),
    a ∈ allBlocksCs bs bc cs → ∃ c ∈ cs, a ∈ blocksOf bs bc c
  | [], a, ha => absurd ha (List.not_mem_nil a)
  | c :: cs, a, ha => by
    rw [allBlocksCs, List.mem_append] at ha
    rcases ha with ha | ha
    · exact ⟨c, List.mem_cons_self c cs, ha⟩
    · obtain ⟨c', hc', ha'⟩ := allBlocksCs_mem bs bc cs a ha
      exact ⟨c', List.mem_cons_of_mem c hc', ha'⟩

theorem allBlocksCs_nodup (bs bc sz : Nat) (hbs : 1 ≤ bs) (hsz : bc * bs ≤ sz) :
    ∀ cs : List Nat, List.Pairwise (fun a b => a + sz ≤ b) cs →
      (allBlocksCs bs bc cs).Nodup
  | [], _ => List.nodup_nil
  | c :: cs, hpw => by
    rw [List.pairwise_cons] at hpw
    rw [allBlocksCs, List.nodup_append]
    refine ⟨blocksOf_nodup bs bc c hbs, allBlocksCs_nodup bs bc sz hbs hsz cs hpw.2, ?_⟩
    intro a ha hcontra
    obtain ⟨c', hc', ha'⟩ := allBlocksCs_mem bs bc cs a hcontra
    have h1 := (blocksOf_mem_bounds bs bc c a ha).2
    have h2 := (blocksOf_mem_bounds bs bc c' a ha').1
    have h3 := hpw.1 c' hc'
    omega

/-! ### Running traces piecewise -/

theorem runOps_cons_of (s s₁ : PoolSt) (op : Op) (ops : List Op)
    (hstep : runOp s op = .ok s₁) :
    runOps s (op :: ops) = runOps s₁ ops := by
  show (match runOp s op with
        | .ok s' => runOps s' ops
        | .error e => .error e) = runOps s₁ ops
  rw [hstep]

theorem runOps_append_ok (l₂ : List Op) : ∀ (l₁ : List Op) (s s₁ : PoolSt),
    runOps s l₁ = .ok s₁ → runOps s (l₁ ++ l₂) = runOps s₁ l₂
  | [], s, s₁, h => by rw [runOps_nil_ok s s₁ h]; rfl
  | op :: ops, s, s₁, h => by
    obtain ⟨s₂, hstep, hrest⟩ := runOps_cons_ok s s₁ op ops h
    rw [List.cons_append, runOps_cons_of s s₂ op (ops ++ l₂) hstep]
    exact runOps_append_ok l₂ ops s₂ s₁ hrest

/-- While the free list holds at least `n` blocks, `n` consecutive
`allocate` calls pop exactly the first `n` free-list entries, acquire no
chunk and touch no other state. -/
theorem runOps_replicate_alloc : ∀ (n : Nat) (s : PoolSt),
    n ≤ s.pool.freeList.length →
    runOps s (List.replicate n .alloc) =
      .ok ⟨{ s.pool with freeList := s.pool.freeList.drop n }, s.heap,
           (s.pool.freeList.take n).reverse ++ s.held⟩
  | 0, s, _ => by simp [runOps]
  | n + 1, s, hlen => by
    cases hfl : s.pool.freeList with
    | nil => rw [hfl] at hlen; exact absurd hlen (by simp)
    | cons x rest =>
      have hlen' : n ≤ rest.length := by
        rw [hfl] at hlen; simpa using hlen
      rw [List.replicate_succ,
        runOps_cons_of s ⟨{ s.pool with freeList := rest }, s.heap, x :: s.held⟩
          .alloc (List.replicate n .alloc) (runOp_alloc_pop s x rest hfl),
        runOps_replicate_alloc n
          ⟨{ s.pool with freeList := rest }, s.heap, x :: s.held⟩ hlen']
      simp

/-! ### Remaining support lemmas -/

theorem allocateFuel_zero_bc : ∀ (fuel : Nat) (q : MemoryPool) (hq : Heap),
    q.blockCount = 0 → q.freeList = [] →
    q.allocateFuel fuel hq = .error .outOfFuel
  | 0, _, _, _, _ => rfl
  | fuel + 1, q, hq, hbc0, hfl => by
    have hcs : chunkSz q ≤ hq.budget := by
      show q.blockSize * q.blockCount % sizetMod ≤ hq.budget
      rw [hbc0]
      simp
    rw [allocateFuel_nil_ok fuel q hq hfl hcs]
    refine allocateFuel_zero_bc fuel _ _ hbc0 ?_
    show (blocksOf q.blockSize q.blockCount hq.nextAddr).reverse ++ q.freeList = []
    rw [hbc0, hfl]
    rfl

theorem countAlloc_replicate (n : Nat) :
    countAlloc (List.replicate n .alloc) = n := by
  induction n with
  | zero => rfl
  | succ n ih =>
    rw [List.replicate_succ]
    show countAlloc (List.replicate n .alloc) + 1 = n + 1
    rw [ih]

theorem countFree_replicate (n : Nat) :
    countFree (List.replicate n .alloc) = 0 := by
  induction n with
  | zero => rfl
  | succ n ih =>
    rw [List.replicate_succ]
    show countFree (List.replicate n .alloc) = 0
    rw [ih]

/-! ### The claims -/

/-- Claim C1 (evidence for a code bug): the spec says a requested
`block_size` below `sizeof(Node)` is raised to that minimum, but in the
source the clamp assigns to the constructor parameter, which shadows the
already-initialized member — the member keeps the requested value.
Concretely, constructing with requested block size 1 (< `sizeofNode` = 8)
and 4 blocks per chunk yields a pool whose `blockSize` member is still 1 and
whose chunk is carved into blocks at addresses 0, 1, 2, 3 — spaced 1 byte
apart, not at least 8 — so the free-list links of neighbouring free blocks
overlap in memory. -/
theorem claim_C1_blockSize_not_clamped :
    mkMemoryPool 1 4 ⟨0, 100⟩ = .ok (⟨[3, 2, 1, 0], [0], 1, 4⟩, ⟨4, 96⟩) ∧
    (1 : Nat) < sizeofNode := by
  constructor
  · rfl
  · decide

/-- Claim C5: a successful chunk-growth cycle appends exactly one chunk to
`allocatedChunks`, and the resulting pool is exactly the chunk-recorded pool
with every one of the `blockCount` blocks (at offsets `i * blockSize`)
pushed onto the free list via the `deallocate` mechanism: the free list
grows by exactly `blockCount` entries and contains every carved block. -/
theorem claim_C5_chunk_growth (p p' : MemoryPool) (h h' : Heap)
    (hok : p.allocateChunk h = .ok (p', h')) :
    ∃ c, p'.allocatedChunks = p.allocatedChunks ++ [c] ∧
      p' = (List.range p.blockCount).foldl
             (fun q i => q.deallocate (c + i * p.blockSize))
             { p with allocatedChunks := p.allocatedChunks ++ [c] } ∧
      p'.freeList.length = p.freeList.length + p.blockCount ∧
      ∀ i < p.blockCount, (c + i * p.blockSize) ∈ p'.freeList := by
  by_cases hb : chunkSz p ≤ h.budget
  · rw [allocateChunk_ok p h hb] at hok
    simp only [Except.ok.injEq, Prod.mk.injEq] at hok
    obtain ⟨hp, hh⟩ := hok
    refine ⟨h.nextAddr, ?_, ?_, ?_, ?_⟩
    · rw [← hp]
    · rw [← hp, foldl_deallocate_blocks]
    · rw [← hp]
      simp [blocksOf_length, Nat.add_comm]
    · intro i hi
      rw [← hp]
      apply List.mem_append_left
      rw [List.mem_reverse]
      simp only [blocksOf, List.mem_map, List.mem_range]
      exact ⟨i, hi, rfl⟩
  · rw [allocateChunk_fail p h hb] at hok
    exact absurd hok (fun hc => Except.noConfusion hc)

theorem claim_C5_chunk_growth_witness :
    ∃ c, ([0] : List Nat) = [] ++ [c] ∧
      (⟨[8, 0], [0], 8, 2⟩ : MemoryPool) =
        (List.range 2).foldl (fun q i => q.deallocate (c + i * 8))
          ⟨[], [] ++ [c], 8, 2⟩ ∧
      ([8, 0] : List Nat).length = ([] : List Nat).length + 2 ∧
      ∀ i < 2, (c + i * 8) ∈ ([8, 0] : List Nat) :=
  claim_C5_chunk_growth ⟨[], [], 8, 2⟩ ⟨[8, 0], [0], 8, 2⟩ ⟨0, 100⟩ ⟨16, 84⟩ rfl

/-- Claim C6: when the raw chunk acquisition (`malloc`) fails, the growth
cycle raises the out-of-memory error and it propagates unchanged — from
`allocateChunk` itself, from an `allocate` call that triggered growth, and
from the constructor's eager initial growth.  The error payload records the
pool members and heap at the throw point, which equal the values at entry:
`allocatedChunks` gains no entry and the free list is untouched. -/
theorem claim_C6_oom_propagation (p : MemoryPool) (h : Heap) (fuel : Nat)
    (bs bc : Nat) (h₂ : Heap)
    (hfail : malloc h (chunkSz p) = none)
    (hfail₂ : malloc h₂ (bs * bc % sizetMod) = none) :
    p.allocateChunk h = .error (.oom p h) ∧
    (p.freeList = [] → p.allocateFuel (fuel + 1) h = .error (.oom p h)) ∧
    mkMemoryPool bs bc h₂ = .error (.oom ⟨[], [], bs, bc⟩ h₂) := by
  have hb : ¬ chunkSz p ≤ h.budget := by
    intro hc
    rw [malloc_some h _ hc] at hfail
    exact Option.noConfusion hfail
  have hb₂ : ¬ bs * bc % sizetMod ≤ h₂.budget := by
    intro hc
    rw [malloc_some h₂ _ hc] at hfail₂
    exact Option.noConfusion hfail₂
  exact ⟨allocateChunk_fail p h hb,
    fun hfl => allocateFuel_nil_fail fuel p h hfl hb,
    allocateChunk_fail ⟨[], [], bs, bc⟩ h₂ hb₂⟩

theorem claim_C6_oom_propagation_witness :
    (⟨[], [], 8, 2⟩ : MemoryPool).allocateChunk ⟨0, 3⟩ =
        .error (.oom ⟨[], [], 8, 2⟩ ⟨0, 3⟩) ∧
    ((⟨[], [], 8, 2⟩ : MemoryPool).freeList = [] →
      (⟨[], [], 8, 2⟩ : MemoryPool).allocateFuel (0 + 1) ⟨0, 3⟩ =
        .error (.oom ⟨[], [], 8, 2⟩ ⟨0, 3⟩)) ∧
    mkMemoryPool 8 2 ⟨0, 3⟩ = .error (.oom ⟨[], [], 8, 2⟩ ⟨0, 3⟩) :=
  claim_C6_oom_propagation ⟨[], [], 8, 2⟩ ⟨0, 3⟩ 0 8 2 ⟨0, 3⟩ rfl rfl

/-- Claim C7: after a move construction from source `s`, and after a move
assignment from `s` into destination `d`, the destination holds exactly the
source's free list and chunk set, while the moved-from source owns no
chunks and has an empty free list. -/
theorem claim_C7_move_transfer (s d : MemoryPool) :
    (MemoryPool.moveCtor s).1.freeList = s.freeList ∧
    (MemoryPool.moveCtor s).1.allocatedChunks = s.allocatedChunks ∧
    (MemoryPool.moveCtor s).2.freeList = [] ∧
    (MemoryPool.moveCtor s).2.allocatedChunks = [] ∧
    (MemoryPool.moveAssign d s).1.freeList = s.freeList ∧
    (MemoryPool.moveAssign d s).1.allocatedChunks = s.allocatedChunks ∧
    (MemoryPool.moveAssign d s).2.1.freeList = [] ∧
    (MemoryPool.moveAssign d s).2.1.allocatedChunks = [] :=
  ⟨rfl, rfl, rfl, rfl, rfl, rfl, rfl, rfl⟩

/-- Claim C9: in sequential use the free list is a LIFO stack — from any
pool state, deallocating a block `b` and then immediately allocating
returns exactly `b`, and restores the pool to the state before the
deallocation. -/
theorem claim_C9_lifo (p : MemoryPool) (h : Heap) (b fuel : Nat) :
    (p.deallocate b).allocateFuel (fuel + 1) h = .ok (b, p, h) := by
  rw [allocateFuel_cons fuel (p.deallocate b) h b p.freeList rfl]
  rfl

/-- Claim C10: with `blockCount ≥ 1` every sequential `allocate` call needs
at most one chunk-growth cycle: fuel 2 never runs out (any deeper recursion
would), adding fuel beyond 2 never changes the result, and a successful
call acquires at most one chunk.  With `blockCount = 0` (and an empty free
list) the recursion never terminates: every finite fuel is exhausted. -/
theorem claim_C10_termination (p : MemoryPool) (h : Heap)
    (hbc : 1 ≤ p.blockCount) :
    p.allocateFuel 2 h ≠ .error .outOfFuel ∧
    (∀ fuel, p.allocateFuel (fuel + 2) h = p.allocateFuel 2 h) ∧
    (∀ x p' h', p.allocateFuel 2 h = .ok (x, p', h') →
      p'.allocatedChunks.length ≤ p.allocatedChunks.length + 1) ∧
    (∀ (q : MemoryPool) (hq : Heap), q.blockCount = 0 → q.freeList = [] →
      ∀ fuel, q.allocateFuel fuel hq = .error .outOfFuel) := by
  have hmain : p.allocateFuel 2 h ≠ .error .outOfFuel ∧
      ∀ fuel, p.allocateFuel (fuel + 2) h = p.allocateFuel 2 h := by
    cases hfl : p.freeList with
    | cons x rest =>
      constructor
      · rw [allocateFuel_cons 1 p h x rest hfl]
        exact fun hc => Except.noConfusion hc
      · intro fuel
        rw [allocateFuel_cons 1 p h x rest hfl,
          allocateFuel_cons (fuel + 1) p h x rest hfl]
    | nil =>
      by_cases hb : chunkSz p ≤ h.budget
      · have hne : ∃ y ys,
            (blocksOf p.blockSize p.blockCount h.nextAddr).reverse ++ p.freeList =
              y :: ys := by
          cases hrev : (blocksOf p.blockSize p.blockCount h.nextAddr).reverse with
          | nil =>
            have hlb := blocksOf_length p.blockSize p.blockCount h.nextAddr
            rw [← List.length_reverse, hrev] at hlb
            simp at hlb
            omega
          | cons y ys => exact ⟨y, ys ++ p.freeList, rfl⟩
        obtain ⟨y, ys, hys⟩ := hne
        constructor
        · rw [allocateFuel_nil_ok 1 p h hfl hb, allocateFuel_cons 0 _ _ y ys hys]
          exact fun hc => Except.noConfusion hc
        · intro fuel
          rw [allocateFuel_nil_ok 1 p h hfl hb,
            allocateFuel_nil_ok (fuel + 1) p h hfl hb,
            allocateFuel_cons 0 _ _ y ys hys,
            allocateFuel_cons fuel _ _ y ys hys]
      · constructor
        · rw [allocateFuel_nil_fail 1 p h hfl hb]
          intro hc
          simp only [Except.error.injEq] at hc
          exact PoolErr.noConfusion hc
        · intro fuel
          rw [allocateFuel_nil_fail 1 p h hfl hb,
            allocateFuel_nil_fail (fuel + 1) p h hfl hb]
  refine ⟨hmain.1, hmain.2, ?_, fun q hq h0 hfl fuel => allocateFuel_zero_bc fuel q hq h0 hfl⟩
  intro x p' h' hok
  rcases allocateFuel_two_cases p p' h h' x hok with
    ⟨rest, _, hp, _⟩ | ⟨_, _, rest, _, hp, _⟩ <;> subst hp <;> simp

theorem claim_C10_termination_witness :
    (⟨[0], [0], 8, 1⟩ : MemoryPool).allocateFuel 2 ⟨8, 92⟩ ≠ .error .outOfFuel ∧
    (∀ fuel, (⟨[0], [0], 8, 1⟩ : MemoryPool).allocateFuel (fuel + 2) ⟨8, 92⟩ =
      (⟨[0], [0], 8, 1⟩ : MemoryPool).allocateFuel 2 ⟨8, 92⟩) ∧
    (∀ x p' h',
      (⟨[0], [0], 8, 1⟩ : MemoryPool).allocateFuel 2 ⟨8, 92⟩ = .ok (x, p', h') →
      p'.allocatedChunks.length ≤ ([0] : List Nat).length + 1) ∧
    (∀ (q : MemoryPool) (hq : Heap), q.blockCount = 0 → q.freeList = [] →
      ∀ fuel, q.allocateFuel fuel hq = .error .outOfFuel) :=
  claim_C10_termination ⟨[0], [0], 8, 1⟩ ⟨8, 92⟩ (by decide)

/-- Claim C2: over any balanced, validly paired trace of
`allocate`/`deallocate` calls on one pool (split here at an arbitrary
intermediate point to express monotonicity), the chunk count never
decreases, and at the end all blocks are back in the pool: no block is held
and the free list holds exactly `chunks × blockCount` blocks.  The
hypothesis `sizeofNode ≤ bs` restricts to pools whose intrusive free-list
links cannot overlap, the regime in which the list model is exact. -/
theorem claim_C2_conservation (bs bc : Nat) (h₀ : Heap) (s₀ mid fin : PoolSt)
    (ops₁ ops₂ : List Op)
    (hbs : sizeofNode ≤ bs)
    (hinit : initPool bs bc h₀ = .ok s₀)
    (h₁ : runOps s₀ ops₁ = .ok mid)
    (h₂ : runOps mid ops₂ = .ok fin)
    (hbal : countAlloc (ops₁ ++ ops₂) = countFree (ops₁ ++ ops₂)) :
    mid.pool.allocatedChunks.length ≤ fin.pool.allocatedChunks.length ∧
    fin.held = [] ∧
    fin.pool.freeList.length = fin.pool.allocatedChunks.length * bc := by
  obtain ⟨hb, hs₀⟩ := initPool_ok bs bc h₀ s₀ hinit
  have hrun : runOps s₀ (ops₁ ++ ops₂) = .ok fin :=
    (runOps_append_ok ops₂ ops₁ s₀ mid h₁).trans h₂
  have hcnt := runOps_held_count (ops₁ ++ ops₂) s₀ fin hrun
  have hheld0 : s₀.held.length = 0 := by rw [hs₀]; rfl
  have hfin0 : fin.held.length = 0 := by omega
  have hfinheld : fin.held = [] := List.length_eq_zero.mp hfin0
  have hinv := Inv_runOps (ops₁ ++ ops₂) s₀ fin hrun (Inv_init bs bc h₀ s₀ hinit)
  have hlen := hinv.2.length_eq
  rw [List.length_append, hfin0, Nat.add_zero] at hlen
  have hcfg := runOps_cfg (ops₁ ++ ops₂) s₀ fin hrun
  have hbc' : fin.pool.blockCount = bc := by rw [hcfg.2, hs₀]
  have hab : (allBlocks fin.pool).length =
      fin.pool.allocatedChunks.length * fin.pool.blockCount :=
    allBlocksCs_length _ _ _
  refine ⟨runOps_chunks_mono ops₂ mid fin h₂, hfinheld, ?_⟩
  rw [hlen, hab, hbc']

theorem claim_C2_conservation_witness :
    ([0] : List Nat).length ≤ ([0] : List Nat).length ∧
    ([] : List Nat) = [] ∧
    ([0] : List Nat).length = ([0] : List Nat).length * 1 :=
  claim_C2_conservation 8 1 ⟨0, 100⟩
    ⟨⟨[0], [0], 8, 1⟩, ⟨8, 92⟩, []⟩
    ⟨⟨[], [0], 8, 1⟩, ⟨8, 92⟩, [0]⟩
    ⟨⟨[0], [0], 8, 1⟩, ⟨8, 92⟩, []⟩
    [.alloc] [.free 0] (by decide) rfl rfl rfl rfl

/-- Claim C3: from a freshly constructed pool with `blockCount = bc ≥ 1`,
exactly `bc` sequential `allocate` calls leave the pool with exactly the one
eagerly acquired chunk, and `bc + 1` such calls force exactly a second
chunk acquisition. -/
theorem claim_C3_growth_trigger (bs bc : Nat) (h₀ : Heap) (s₀ s₁ s₂ : PoolSt)
    (hbs : sizeofNode ≤ bs) (hbc : 1 ≤ bc)
    (hinit : initPool bs bc h₀ = .ok s₀)
    (h₁ : runOps s₀ (List.replicate bc .alloc) = .ok s₁)
    (h₂ : runOps s₀ (List.replicate (bc + 1) .alloc) = .ok s₂) :
    s₁.pool.allocatedChunks.length = 1 ∧ s₂.pool.allocatedChunks.length = 2 := by
  obtain ⟨hb, hs₀⟩ := initPool_ok bs bc h₀ s₀ hinit
  subst hs₀
  have hlen : bc ≤ (⟨⟨(blocksOf bs bc h₀.nextAddr).reverse, [h₀.nextAddr], bs, bc⟩,
      ⟨h₀.nextAddr + bs * bc % sizetMod, h₀.budget - bs * bc % sizetMod⟩, []⟩ :
      PoolSt).pool.freeList.length := by
    simp [blocksOf_length]
  have hrep := runOps_replicate_alloc bc _ hlen
  rw [hrep] at h₁
  simp only [Except.ok.injEq] at h₁
  have hdrop : ((blocksOf bs bc h₀.nextAddr).reverse).drop bc = [] :=
    List.drop_eq_nil_of_le (by simp [blocksOf_length])
  constructor
  · rw [← h₁]
    rfl
  · have hsplit : List.replicate (bc + 1) Op.alloc =
        List.replicate bc Op.alloc ++ [Op.alloc] := by
      rw [List.replicate_add]
      rfl
    rw [hsplit, runOps_append_ok [Op.alloc] (List.replicate bc Op.alloc) _ _ hrep] at h₂
    obtain ⟨s₃, hstep, hnil⟩ := runOps_cons_ok _ s₂ Op.alloc [] h₂
    have hs₂ : s₂ = s₃ := runOps_nil_ok _ _ hnil
    subst hs₂
    rcases runOp_alloc_cases _ s₂ hstep with
      ⟨x, rest, hfl, _⟩ | ⟨_, _, x, rest, _, hs'⟩
    · rw [show (⟨⟨((blocksOf bs bc h₀.nextAddr).reverse).drop bc, [h₀.nextAddr], bs, bc⟩,
          ⟨h₀.nextAddr + bs * bc % sizetMod, h₀.budget - bs * bc % sizetMod⟩,
          ((blocksOf bs bc h₀.nextAddr).reverse.take bc).reverse ++ []⟩ :
          PoolSt).pool.freeList = ((blocksOf bs bc h₀.nextAddr).reverse).drop bc
          from rfl, hdrop] at hfl
      exact absurd hfl (fun hc => List.noConfusion hc)
    · subst hs'
      simp

theorem claim_C3_growth_trigger_witness :
    ([0] : List Nat).length = 1 ∧ ([0, 8] : List Nat).length = 2 :=
  claim_C3_growth_trigger 8 1 ⟨0, 100⟩
    ⟨⟨[0], [0], 8, 1⟩, ⟨8, 92⟩, []⟩
    ⟨⟨[], [0], 8, 1⟩, ⟨8, 92⟩, [0]⟩
    ⟨⟨[], [0, 8], 8, 1⟩, ⟨16, 84⟩, [8, 0]⟩
    (by decide) (by decide) rfl rfl rfl

/-- Claim C4: after any number `N` of sequential `allocate` calls with no
interleaved `deallocate`, the `N` handles held by the caller are pairwise
distinct, and each one addresses a whole block inside one of the pool's
acquired chunks.  `sizeofNode ≤ bs` is the regime where the list model of
the intrusive free list is exact, and `bs * bc < sizetMod` rules out
`size_t` overflow in the chunk size, so a chunk really spans its
`bc` blocks. -/
theorem claim_C4_no_loss (bs bc N : Nat) (h₀ : Heap) (s₀ s' : PoolSt)
    (hbs : sizeofNode ≤ bs) (hov : bs * bc < sizetMod)
    (hinit : initPool bs bc h₀ = .ok s₀)
    (hrun : runOps s₀ (List.replicate N .alloc) = .ok s') :
    s'.held.Nodup ∧ s'.held.length = N ∧
    ∀ a ∈ s'.held, ∃ c ∈ s'.pool.allocatedChunks,
      c ≤ a ∧ a + bs ≤ c + bs * bc := by
  obtain ⟨hb, hs₀⟩ := initPool_ok bs bc h₀ s₀ hinit
  have hinv := Inv_runOps _ s₀ s' hrun (Inv_init bs bc h₀ s₀ hinit)
  have hcfg := runOps_cfg _ s₀ s' hrun
  have hbs' : s'.pool.blockSize = bs := by rw [hcfg.1, hs₀]
  have hbc' : s'.pool.blockCount = bc := by rw [hcfg.2, hs₀]
  have hsz : chunkSz s'.pool = bs * bc := by
    show s'.pool.blockSize * s'.pool.blockCount % sizetMod = bs * bc
    rw [hbs', hbc']
    exact Nat.mod_eq_of_lt hov
  have hone : (1 : Nat) ≤ bs := le_trans (by decide) hbs
  have habnd : (allBlocks s'.pool).Nodup := by
    show (allBlocksCs s'.pool.blockSize s'.pool.blockCount
      s'.pool.allocatedChunks).Nodup
    rw [hbs', hbc']
    refine allBlocksCs_nodup bs bc (chunkSz s'.pool) hone
      (by rw [hsz, Nat.mul_comm]) s'.pool.allocatedChunks hinv.1.1
  have hnd : (s'.pool.freeList ++ s'.held).Nodup := hinv.2.symm.nodup habnd
  refine ⟨(List.nodup_append.mp hnd).2.1, ?_, ?_⟩
  · have hcnt := runOps_held_count _ s₀ s' hrun
    rw [countAlloc_replicate, countFree_replicate] at hcnt
    have hheld0 : s₀.held.length = 0 := by rw [hs₀]; rfl
    omega
  · intro a ha
    have hab : a ∈ allBlocks s'.pool :=
      hinv.2.mem_iff.mp (List.mem_append_right _ ha)
    have hab' : a ∈ allBlocksCs bs bc s'.pool.allocatedChunks := by
      rw [← hbs', ← hbc']
      exact hab
    obtain ⟨c, hc, hac⟩ := allBlocksCs_mem bs bc s'.pool.allocatedChunks a hab'
    obtain ⟨h1, h2⟩ := blocksOf_mem_bounds bs bc c a hac
    exact ⟨c, hc, h1, by rw [Nat.mul_comm bs bc]; exact h2⟩

theorem claim_C4_no_loss_witness :
    ([8, 0] : List Nat).Nodup ∧ ([8, 0] : List Nat).length = 2 ∧
    ∀ a ∈ ([8, 0] : List Nat), ∃ c ∈ ([0, 8] : List Nat),
      c ≤ a ∧ a + 8 ≤ c + 8 * 1 :=
  claim_C4_no_loss 8 1 2 ⟨0, 100⟩
    ⟨⟨[0], [0], 8, 1⟩, ⟨8, 92⟩, []⟩
    ⟨⟨[], [0, 8], 8, 1⟩, ⟨16, 84⟩, [8, 0]⟩
    (by decide) (by norm_num [sizetMod]) rfl rfl

end MemPool
